import Mathlib

/-!
Verification development for the TMC2130 linearity-correction plugin
(tmc2130_linearity.py).  The three core algorithms are embedded:

* constant-torque wave-table generation
  (tmc2130_calc_constant_torque_value / generate_constant_torque_wave):
  the transcendental floating-point computation of the theoretical curve
  value at each index is abstracted as an arbitrary rational-valued
  sequence `theo : Nat → Rat`; the quantization, slope-based delta
  limiting, amplitude clamping and carry propagation are embedded
  exactly, so every theorem quantified over `theo` holds for every
  possible floating-point realisation of the curve;

* the MSLUT compression loop of write_wave_table, including the exact
  order of register-field writes (MSLUTSTART before the loop, mslut
  words inside it, MSLUTSEL after it) and the early loop exits;

* the goto_step motion-planning computation (shift search, cycle
  length, two-stage direction flip) and the pulse count of the caller.
-/

set_option maxRecDepth 1000000

namespace TMCLin

/-- Truncation toward zero on rationals, mirroring the Python builtin
int() applied to a float. -/
def ratTrunc (q : ℚ) : ℤ := q.num.tdiv q.den

/-- One iteration of tmc2130_calc_constant_torque_value
(src lines 252-322).  The float computation of theoretical_value from
the index, factor and tcorr is abstracted as the argument `theo`; the
rest follows the source: carry-adjusted rounding (add 0.5, truncate),
slope floor clamped to [-1,2], delta forced into
[minDelta, minDelta+1], amplitude clamp to [0,248], carry and
previous-theoretical update.  Returns (value, new carry, new prev). -/
def tmc2130_calc_constant_torque_value (theo : ℚ) (va : ℤ) (carry prevTheo : ℚ) :
    ℤ × ℚ × ℚ :=
  let candidate0 : ℤ := ratTrunc (theo - carry + 1/2)
  let slope : ℚ := theo - prevTheo
  let md0 : ℤ := ⌊slope⌋
  let minDelta : ℤ := if md0 < -1 then -1 else if md0 > 2 then 2 else md0
  let delta : ℤ := candidate0 - va
  let c1 : ℤ :=
    if delta < minDelta then va + minDelta
    else if delta > minDelta + 1 then va + minDelta + 1
    else candidate0
  let c2 : ℤ := if c1 < 0 then 0 else if c1 > 248 then 248 else c1
  (c2, (c2 : ℚ) - theo, theo)

/-- The generation loop of generate_constant_torque_wave
(src lines 350-360): `n` entries starting at index `i`, threading the
previous quantized value, the carry and the previous theoretical
value. -/
def genFrom (theo : ℕ → ℚ) : ℕ → ℕ → ℤ → ℚ → ℚ → List ℤ
  | 0, _, _, _, _ => []
  | n+1, i, va, carry, prev =>
    let r := tmc2130_calc_constant_torque_value (theo i) va carry prev
    r.1 :: genFrom theo n (i+1) r.1 r.2.1 r.2.2

/-- generate_constant_torque_wave (src lines 324-360): 256 entries,
with va = 0, carry = 0.0 and previous theoretical value 0.0
initially. -/
def generate_constant_torque_wave (theo : ℕ → ℚ) : List ℤ :=
  genFrom theo 256 0 0 0 0

/-- Every entry lies in the amplitude range [0, 248]. -/
def ampOk : List ℤ → Bool
  | [] => true
  | v :: rest => decide (0 ≤ v ∧ v ≤ 248) && ampOk rest

/-- Every consecutive difference (relative to the given previous value)
lies in the representable per-step window [-1, 3]. -/
def deltasOk : ℤ → List ℤ → Bool
  | _, [] => true
  | prev, v :: rest => decide (-1 ≤ v - prev ∧ v - prev ≤ 3) && deltasOk v rest

lemma calc_value_bounds (theo carry prev : ℚ) (va : ℤ)
    (h0 : 0 ≤ va) (h1 : va ≤ 248) :
    0 ≤ (tmc2130_calc_constant_torque_value theo va carry prev).1 ∧
    (tmc2130_calc_constant_torque_value theo va carry prev).1 ≤ 248 ∧
    -1 ≤ (tmc2130_calc_constant_torque_value theo va carry prev).1 - va ∧
    (tmc2130_calc_constant_torque_value theo va carry prev).1 - va ≤ 3 := by
  simp only [tmc2130_calc_constant_torque_value]
  split_ifs <;> omega

lemma genFrom_invariant (theo : ℕ → ℚ) :
    ∀ (n i : ℕ) (va : ℤ) (carry prev : ℚ), 0 ≤ va → va ≤ 248 →
      (genFrom theo n i va carry prev).length = n ∧
      ampOk (genFrom theo n i va carry prev) = true ∧
      deltasOk va (genFrom theo n i va carry prev) = true := by
  intro n
  induction n with
  | zero =>
    intro i va carry prev h0 h1
    simp [genFrom, ampOk, deltasOk]
  | succ n ih =>
    intro i va carry prev h0 h1
    have hb := calc_value_bounds (theo i) carry prev va h0 h1
    obtain ⟨hl, ha, hd⟩ :=
      ih (i+1) (tmc2130_calc_constant_torque_value (theo i) va carry prev).1
        (tmc2130_calc_constant_torque_value (theo i) va carry prev).2.1
        (tmc2130_calc_constant_torque_value (theo i) va carry prev).2.2
        (by omega) (by omega)
    refine ⟨by simpa [genFrom] using hl, ?_, ?_⟩
    · simp only [genFrom, ampOk, Bool.and_eq_true, decide_eq_true_eq]
      exact ⟨⟨hb.1, hb.2.1⟩, ha⟩
    · simp only [genFrom, deltasOk, Bool.and_eq_true, decide_eq_true_eq]
      exact ⟨⟨hb.2.2.1, hb.2.2.2⟩, hd⟩

/-- C7: for every realisation of the theoretical curve (hence for every
linearity factor in [1.0, 1.2]), generation is total and returns a wave
table of exactly 256 entries, each an integer in [0, 248]. -/
theorem c7_generate_length_and_range (theo : ℕ → ℚ) :
    (generate_constant_torque_wave theo).length = 256 ∧
    ampOk (generate_constant_torque_wave theo) = true := by
  have h := genFrom_invariant theo 256 0 0 0 0 le_rfl (by norm_num)
  exact ⟨h.1, h.2.1⟩

/-- C10: for every realisation of the theoretical curve (any input, not
only the validated factor domain), every consecutive difference of the
generated table, taking the entry before index 0 to be 0, lies in
[-1, 3]: the clamp structure alone forces the table into the
compressor's representable per-step delta window, independently of the
floating-point values of sin, pow and sqrt. -/
theorem c10_generate_deltas_in_window (theo : ℕ → ℚ) :
    deltasOk 0 (generate_constant_torque_wave theo) = true :=
  (genFrom_invariant theo 256 0 0 0 0 le_rfl (by norm_num)).2.2

/-! ## Motion planner (goto_step) -/

/-- The shift-search loop of goto_step (src lines 658-661):
Python iterates shift over range(8) and breaks at the first shift with
resolution = 256 >> shift; if none matches the loop variable is left at
its final value 7. -/
def findShiftGo (res : ℕ) : ℕ → ℕ → ℕ
  | 0, _ => 7
  | fuel+1, k => if res = 256 >>> k then k else findShiftGo res fuel (k+1)

/-- Shift such that resolution = 256 >> shift, defaulting to 7 when no
shift in 0..7 matches. -/
def findShift (res : ℕ) : ℕ := findShiftGo res 8 0

/-- Result of the planning portion of goto_step: direction, step count,
shift and full cycle length. -/
structure Plan where
  dir : ℕ
  steps : ℤ
  shift : ℕ
  cycle : ℤ
deriving DecidableEq

/-- The dir = 2 auto-direction planning computation of goto_step
(src lines 650-688): mask the raw counter to 10 bits, find the shift,
cycle length cnt = 4 * (1 << (8 - shift)), base direction from axis
inversion, steps = target - (mscnt >> shift), flip direction and set
steps = cnt - steps when steps > cnt / 2, then flip again and negate
when steps < 0. -/
def goto_step_plan (mscntReg : ℕ) (target : ℤ) (res : ℕ) (inv : Bool) : Plan :=
  let mscnt : ℕ := mscntReg &&& 0x3ff
  let shift : ℕ := findShift res
  let cnt : ℤ := 4 * 2 ^ (8 - shift)
  let dir0 : ℕ := if inv then 0 else 1
  let steps0 : ℤ := target - ((mscnt >>> shift : ℕ) : ℤ)
  let dir1 : ℕ := if steps0 > cnt / 2 then dir0 ^^^ 1 else dir0
  let steps1 : ℤ := if steps0 > cnt / 2 then cnt - steps0 else steps0
  let dir2 : ℕ := if steps1 < 0 then dir1 ^^^ 1 else dir1
  let steps2 : ℤ := if steps1 < 0 then -steps1 else steps1
  ⟨dir2, steps2, shift, cnt⟩

/-- Number of step pulses the caller emits: goto_step returns before
pulsing when the planned count is 0 (src line 690), otherwise
perform_force_move_steps pulses once per planned step (src line 739). -/
def pulse_count (p : Plan) : ℕ := p.steps.toNat

/-- C6: when the target step equals (rawCounter & 0x3FF) >> shift, the
planner returns steps = 0 and the caller emits no pulses. -/
theorem c6_plan_noop (raw res : ℕ) (inv : Bool) :
    (goto_step_plan raw (((raw &&& 0x3ff) >>> findShift res : ℕ) : ℤ) res inv).steps = 0 ∧
    pulse_count (goto_step_plan raw (((raw &&& 0x3ff) >>> findShift res : ℕ) : ℤ) res inv) = 0 := by
  have hcnt : (0:ℤ) ≤ (4 * 2 ^ (8 - findShift res) : ℤ) / 2 := by positivity
  simp only [goto_step_plan, pulse_count, sub_self]
  constructor
  · split_ifs <;> omega
  · split_ifs <;> omega

lemma findShift_of_shift (shift : ℕ) (h : shift ≤ 7) :
    findShift (256 >>> shift) = shift := by
  interval_cases shift <;> decide

lemma and_shiftRight_le (raw shift : ℕ) :
    (raw &&& 0x3ff) >>> shift ≤ 1023 >>> shift := by
  have h1 : raw &&& 0x3ff ≤ 0x3ff := Nat.and_le_right
  simp only [Nat.shiftRight_eq_div_pow]
  exact Nat.div_le_div_right h1

/-- C4 counterexample: resolution 100 matches no shift, yet the planner
does not fail: the shift-search loop leaves shift = 7 and planning
proceeds exactly as for resolution 2 = 256 >> 7, returning a concrete
plan. -/
theorem c4_counterexample_resolution_100 :
    findShift 100 = 7 ∧
    goto_step_plan 0 5 100 false = goto_step_plan 0 5 2 false ∧
    (goto_step_plan 0 5 100 false).steps = 3 := by decide

/-- C4 amended: for every resolution that equals 256 >> shift for no
shift in 0..7, the motion-planning computation does not fail; the
shift-search loop leaves shift at its final value 7, and planning
proceeds exactly as for resolution 2. -/
theorem c4_invalid_resolution_defaults_to_shift7 (res : ℕ)
    (h : ∀ k, k ≤ 7 → res ≠ 256 >>> k) :
    findShift res = 7 ∧
    ∀ raw target inv, goto_step_plan raw target res inv = goto_step_plan raw target 2 inv := by
  have hfs : findShift res = 7 := by
    simp only [findShift, findShiftGo,
      h 0 (by norm_num), h 1 (by norm_num), h 2 (by norm_num), h 3 (by norm_num),
      h 4 (by norm_num), h 5 (by norm_num), h 6 (by norm_num), h 7 (by norm_num),
      if_false]
  refine ⟨hfs, fun raw target inv => ?_⟩
  have h2 : findShift 2 = 7 := by decide
  simp only [goto_step_plan, hfs, h2]

theorem c4_invalid_resolution_witness : findShift 100 = 7 :=
  (c4_invalid_resolution_defaults_to_shift7 100 (by decide)).1

/-- C5 counterexample: rawCounter 1023, resolution 256 (shift 0,
cycle 1024), targetStep 0: the initial difference is -1023, the first
flip does not trigger, the second flip negates, and the planner returns
1023 steps, which exceeds cycle/2 = 512 - the longer way around the
cyclic space, not the strictly shorter path of 1 step. -/
theorem c5_counterexample_long_path :
    (goto_step_plan 1023 0 256 false).steps = 1023 ∧
    (goto_step_plan 1023 0 256 false).cycle / 2 = 512 := by decide

/-- C5 amended: the two-stage flip logic bounds the returned step count
by cycle/2 only when the initial signed difference
targetStep - ((rawCounter & 0x3FF) >> shift) is at least -cycle/2; for
differences below -cycle/2 (second counterexample theorem) it returns
steps = -difference, exceeding cycle/2. -/
theorem c5_steps_le_half_cycle (raw shift : ℕ) (target : ℤ) (inv : Bool)
    (hsh : shift ≤ 7)
    (ht0 : 0 ≤ target) (ht1 : target ≤ 4 * 2 ^ (8 - shift) - 1)
    (hd : -((4 * 2 ^ (8 - shift) : ℤ) / 2) ≤
        target - (((raw &&& 0x3ff) >>> shift : ℕ) : ℤ)) :
    (goto_step_plan raw target (256 >>> shift) inv).steps ≤
      (4 * 2 ^ (8 - shift) : ℤ) / 2 := by
  have hfs := findShift_of_shift shift hsh
  have hm := and_shiftRight_le raw shift
  simp only [goto_step_plan, hfs]
  interval_cases shift <;>
    (simp only [Nat.reduceShiftRight] at hm ⊢; norm_num at ht1 hd ⊢;
      split_ifs <;> omega)

theorem c5_steps_le_half_cycle_witness :
    (goto_step_plan 0 5 (256 >>> 0) false).steps ≤ (4 * 2 ^ (8 - 0) : ℤ) / 2 :=
  c5_steps_le_half_cycle 0 0 5 false (by decide) (by decide) (by decide) (by decide)

/-! ## MSLUT compression (write_wave_table) -/

/-- State of the compression loop of write_wave_table
(src lines 385-395), extended with ghost fields recording the emitted
delta-class bits, the stored 32-bit words and the mslut register writes
issued so far. -/
structure CompState where
  va : ℤ
  d0 : ℤ
  d1 : ℤ
  w : List ℤ
  x : List ℤ
  s : ℕ
  reg : ℕ
  words : List ℕ
  lutWrites : List (String × ℤ)
  bits : List Bool
  aborted : Bool

/-- The delta encoding of one step (src lines 408-457): bit 0 for
delta = d0, bit 1 for delta = d1, otherwise an adaptive family switch
(down for delta < d0 with delta in -1..1, up for delta > d1 with delta
in 1..3), updating w[s+1] when s+1 < 4 and recording x[s] and
incrementing s when s < 3; none when no case matches (b = -1 in the
source). -/
def encodeDelta (dA d0 d1 : ℤ) (s : ℕ) (w x : List ℤ) (i : ℕ) :
    Option (Bool × ℤ × ℤ × ℕ × List ℤ × List ℤ) :=
  if dA = d0 then some (false, d0, d1, s, w, x)
  else if dA = d1 then some (true, d0, d1, s, w, x)
  else if dA < d0 then
    if dA = -1 then
      some (false, -1, 0, (if s < 3 then s+1 else s),
        (if s + 1 < 4 then w.set (s+1) 0 else w),
        (if s < 3 then x.set s (i : ℤ) else x))
    else if dA = 0 then
      some (false, 0, 1, (if s < 3 then s+1 else s),
        (if s + 1 < 4 then w.set (s+1) 1 else w),
        (if s < 3 then x.set s (i : ℤ) else x))
    else if dA = 1 then
      some (false, 1, 2, (if s < 3 then s+1 else s),
        (if s + 1 < 4 then w.set (s+1) 2 else w),
        (if s < 3 then x.set s (i : ℤ) else x))
    else none
  else if dA > d1 then
    if dA = 1 then
      some (true, 0, 1, (if s < 3 then s+1 else s),
        (if s + 1 < 4 then w.set (s+1) 1 else w),
        (if s < 3 then x.set s (i : ℤ) else x))
    else if dA = 2 then
      some (true, 1, 2, (if s < 3 then s+1 else s),
        (if s + 1 < 4 then w.set (s+1) 2 else w),
        (if s < 3 then x.set s (i : ℤ) else x))
    else if dA = 3 then
      some (true, 2, 3, (if s < 3 then s+1 else s),
        (if s + 1 < 4 then w.set (s+1) 3 else w),
        (if s < 3 then x.set s (i : ℤ) else x))
    else none
  else none

/-- Name of the MSLUT word register for index i: mslut(i >> 5). -/
def mslutName (i : ℕ) : String := "mslut" ++ toString (i >>> 5)

/-- The per-index state update of the compression loop when the delta
was encoded (src lines 465-474): reset the accumulator at a block
start, set its top bit when the emitted bit is 1, store it into the
mslut word at every 32nd index (i mod 32 = 31) and right-shift it by
one at every other index. -/
def compStepGood (st : CompState) (vA : ℤ) (b : Bool) (d0n d1n : ℤ) (sn : ℕ)
    (wn xn : List ℤ) (i : ℕ) : CompState :=
  let reg0 : ℕ := if i % 32 = 0 then 0 else st.reg
  let reg1 : ℕ := if b then reg0 ||| 0x80000000 else reg0
  { va := vA
    d0 := d0n
    d1 := d1n
    w := wn
    x := xn
    s := sn
    reg := if i % 32 = 31 then reg1 else reg1 >>> 1
    words := if i % 32 = 31 then st.words ++ [reg1] else st.words
    lutWrites := if i % 32 = 31 then
      st.lutWrites ++ [(mslutName i, (reg1 : ℤ))] else st.lutWrites
    bits := st.bits ++ [b]
    aborted := false }

/-- The main compression loop of write_wave_table (src lines 398-479):
reset the accumulator at the start of each 32-index block, read the
wave value, encode its delta, break (without raising) when no delta
case matched or when s exceeds 3, otherwise perform the accumulator
and word update of compStepGood, and stop after index 255. -/
def compLoop (table : List ℤ) : List ℕ → CompState → CompState
  | [], st => st
  | i :: rest, st =>
    let reg0 : ℕ := if i % 32 = 0 then 0 else st.reg
    let vA : ℤ := table.getD i 0
    let dA : ℤ := vA - st.va
    match encodeDelta dA st.d0 st.d1 st.s st.w st.x i with
    | none => { st with va := vA, reg := reg0, aborted := true }
    | some (b, d0n, d1n, sn, wn, xn) =>
      if sn > 3 then
        { st with
          va := vA
          d0 := d0n
          d1 := d1n
          s := sn
          w := wn
          x := xn
          reg := reg0
          aborted := true }
      else
        let stn : CompState := compStepGood st vA b d0n d1n sn wn xn i
        if i = 255 then stn else compLoop table rest stn

/-- Initial compression state (src lines 385-395): va = 0, d0 = 0,
d1 = 1, w = [1,1,1,1], x = [255,255,255], s = 0, reg = 0. -/
def initState : CompState :=
  ⟨0, 0, 1, [1, 1, 1, 1], [255, 255, 255], 0, 0, [], [], [], false⟩

/-- The MSLUTSEL field writes issued after the loop
(src lines 483-489). -/
def selWrites (w x : List ℤ) : List (String × ℤ) :=
  [("w0", w.getD 0 0), ("w1", w.getD 1 0), ("w2", w.getD 2 0), ("w3", w.getD 3 0),
   ("x1", x.getD 0 0), ("x2", x.getD 1 0), ("x3", x.getD 2 0)]

/-- Result of write_wave_table: the full ordered register write trace
plus the ghost outputs of the loop. -/
structure CompRes where
  writes : List (String × ℤ)
  words : List ℕ
  bits : List Bool
  w : List ℤ
  x : List ℤ
  s : ℕ
  aborted : Bool

/-- write_wave_table (src lines 362-492): write MSLUTSTART
(start_sin = 0, start_sin90 = 248), run the compression loop over
indices 0..255, then write MSLUTSEL (w0..w3, x1..x3) - the latter
writes happen whether or not the loop exited early. -/
def write_wave_table (table : List ℤ) : CompRes :=
  let st := compLoop table (List.range 256) initState
  { writes := [("start_sin", 0), ("start_sin90", 248)] ++ st.lutWrites ++
      selWrites st.w st.x
    words := st.words
    bits := st.bits
    w := st.w
    x := st.x
    s := st.s
    aborted := st.aborted }

/-- Some consecutive difference of the table (relative to the given
previous value) lies outside the representable window [-1, 3]. -/
def hasBadDelta : ℤ → List ℤ → Bool
  | _, [] => false
  | prev, v :: rest =>
    (decide (v - prev < -1) || decide (v - prev > 3)) || hasBadDelta v rest

/-- C1 counterexample: on the synthetic table with a first-step delta
of +10, compression does not fail with an error: the encoding loop
breaks silently at index 0, and write_wave_table still completes its
register writes, including the trailing MSLUTSEL fields. -/
theorem c1_counterexample_no_error :
    (write_wave_table (List.replicate 256 10)).aborted = true ∧
    (write_wave_table (List.replicate 256 10)).writes =
      [("start_sin", 0), ("start_sin90", 248),
       ("w0", 1), ("w1", 1), ("w2", 1), ("w3", 1),
       ("x1", 255), ("x2", 255), ("x3", 255)] := by decide

/-- C2 counterexample: on a table whose compression fails (first delta
+100), the start_sin and start_sin90 register fields have already been
written when the loop breaks: the write trace begins with them. -/
theorem c2_counterexample_writes_before_failure :
    (write_wave_table ((100 : ℤ) :: List.replicate 255 0)).aborted = true ∧
    (write_wave_table ((100 : ℤ) :: List.replicate 255 0)).writes.take 2 =
      [("start_sin", 0), ("start_sin90", 248)] := by decide

/-- C2 amended: write_wave_table always issues the MSLUTSTART writes
first and the MSLUTSEL writes last, whether or not the compression loop
aborts; a failure only stops further mslut word writes in between. -/
theorem c2_write_order_unconditional (table : List ℤ) :
    ∃ mid, (write_wave_table table).writes =
      [("start_sin", 0), ("start_sin90", 248)] ++ mid ++
        selWrites (write_wave_table table).w (write_wave_table table).x :=
  ⟨(compLoop table (List.range 256) initState).lutWrites, rfl⟩

/-- A table whose delta sequence 2, 0, 2, 0, 0, ... demands four family
switches: up at index 0, down at index 1, up at index 2 and down again
at index 3. -/
def fourSwitchTable : List ℤ := [2, 2, 4] ++ List.replicate 253 4

set_option maxRecDepth 100000 in
/-- C3: evaluation at the failing input. The fourth required family
switch at index 3 does not fail the compression: the loop completes all
256 entries (aborted = false, 256 bits emitted) with s capped at 3 and
the fourth transition unrecorded in w and x - a silent truncation,
because the s < 3 bounds checks keep s at 3 and the s > 3 break never
fires. -/
theorem c3_fourth_transition_silently_truncated :
    (write_wave_table fourSwitchTable).aborted = false ∧
    (write_wave_table fourSwitchTable).s = 3 ∧
    (write_wave_table fourSwitchTable).x = [0, 1, 2] ∧
    (write_wave_table fourSwitchTable).w = [1, 2, 1, 2] ∧
    (write_wave_table fourSwitchTable).bits.length = 256 := by decide

/-- The four delta families representable by the encoder state. -/
def famOK (d0 d1 : ℤ) : Prop :=
  (d0 = -1 ∧ d1 = 0) ∨ (d0 = 0 ∧ d1 = 1) ∨ (d0 = 1 ∧ d1 = 2) ∨ (d0 = 2 ∧ d1 = 3)

set_option maxHeartbeats 2000000 in
lemma encodeDelta_eq_none_of_bad (dA d0 d1 : ℤ) (s : ℕ) (w x : List ℤ) (i : ℕ)
    (h : famOK d0 d1) (hbad : dA < -1 ∨ dA > 3) :
    encodeDelta dA d0 d1 s w x i = none := by
  rcases h with ⟨h0, h1⟩ | ⟨h0, h1⟩ | ⟨h0, h1⟩ | ⟨h0, h1⟩ <;> subst h0 <;> subst h1 <;>
    (simp only [encodeDelta]; split_ifs <;> first | rfl | (exfalso; omega))

set_option maxHeartbeats 2000000 in
lemma encodeDelta_ne_none_of_good (dA d0 d1 : ℤ) (s : ℕ) (w x : List ℤ) (i : ℕ)
    (h : famOK d0 d1) (hlo : -1 ≤ dA) (hhi : dA ≤ 3) :
    encodeDelta dA d0 d1 s w x i ≠ none := by
  rcases h with ⟨h0, h1⟩ | ⟨h0, h1⟩ | ⟨h0, h1⟩ | ⟨h0, h1⟩ <;> subst h0 <;> subst h1 <;>
    (simp only [encodeDelta]; split_ifs <;>
      first | exact Option.some_ne_none _ | (exfalso; omega))

set_option maxHeartbeats 2000000 in
lemma encodeDelta_some_props (dA d0 d1 : ℤ) (s : ℕ) (w x : List ℤ) (i : ℕ)
    (b : Bool) (d0n d1n : ℤ) (sn : ℕ) (wn xn : List ℤ)
    (h : famOK d0 d1)
    (he : encodeDelta dA d0 d1 s w x i = some (b, d0n, d1n, sn, wn, xn)) :
    famOK d0n d1n ∧ (s ≤ 3 → sn ≤ 3) := by
  rcases h with ⟨h0, h1⟩ | ⟨h0, h1⟩ | ⟨h0, h1⟩ | ⟨h0, h1⟩ <;> subst h0 <;> subst h1 <;>
    (simp only [encodeDelta] at he; split_ifs at he <;>
      simp only [Option.some.injEq, Prod.mk.injEq] at he <;>
      obtain ⟨hb, h0n, h1n, hsn, hwn, hxn⟩ := he <;>
      subst h0n <;> subst h1n <;> subst hsn <;>
      exact ⟨by simp [famOK], by omega⟩)

set_option maxHeartbeats 2000000 in
lemma compLoop_aborted (table : List ℤ) (ht : table.length = 256) :
    ∀ (n i : ℕ) (st : CompState), i + n = 256 → st.aborted = false →
      famOK st.d0 st.d1 → st.s ≤ 3 →
      (compLoop table (List.range' i n) st).aborted =
        hasBadDelta st.va (table.drop i) := by
  intro n
  induction n with
  | zero =>
    intro i st hin hab hfam hs
    have hdrop : table.drop i = [] := List.drop_eq_nil_iff.mpr (by omega)
    rw [List.range'_zero, hdrop]
    exact hab
  | succ n ih =>
    intro i st hin hab hfam hs
    have hi : i < table.length := by omega
    have hget : table.getD i 0 = table[i] := by
      simp [List.getD_eq_getElem?_getD, List.getElem?_eq_getElem hi]
    rw [List.range'_succ, List.drop_eq_getElem_cons hi, ← hget]
    cases hE : encodeDelta (table.getD i 0 - st.va) st.d0 st.d1 st.s st.w st.x i with
    | none =>
      have hbad : table.getD i 0 - st.va < -1 ∨ table.getD i 0 - st.va > 3 := by
        by_contra hcon
        push_neg at hcon
        exact encodeDelta_ne_none_of_good _ _ _ _ _ _ _ hfam
          (by omega) (by omega) hE
      have hfirstT : (decide (table.getD i 0 - st.va < -1) ||
          decide (table.getD i 0 - st.va > 3)) = true := by
        rcases hbad with hb | hb
        · rw [decide_eq_true hb, Bool.true_or]
        · rw [decide_eq_true hb, Bool.or_true]
      simp only [compLoop, hE, hasBadDelta]
      rw [hfirstT, Bool.true_or]
    | some out =>
      obtain ⟨b, d0n, d1n, sn, wn, xn⟩ := out
      obtain ⟨hfamn, hsn⟩ :=
        encodeDelta_some_props _ _ _ _ _ _ _ _ _ _ _ _ _ hfam hE
      have hgood :
          encodeDelta (table.getD i 0 - st.va) st.d0 st.d1 st.s st.w st.x i ≠ none := by
        rw [hE]; exact Option.noConfusion
      have hfirst :
          (decide (table.getD i 0 - st.va < -1) ||
            decide (table.getD i 0 - st.va > 3)) = false := by
        simp only [Bool.or_eq_false_iff, decide_eq_false_iff_not]
        constructor <;> intro hcon
        · exact hgood (encodeDelta_eq_none_of_bad _ _ _ _ _ _ _ hfam (Or.inl hcon))
        · exact hgood (encodeDelta_eq_none_of_bad _ _ _ _ _ _ _ hfam (Or.inr hcon))
      simp only [compLoop, hE]
      rw [if_neg (by omega : ¬sn > 3)]
      by_cases h255 : i = 255
      · subst h255
        have hn : n = 0 := by omega
        subst hn
        have hdrop : table.drop 256 = [] := List.drop_eq_nil_iff.mpr (by omega)
        rw [if_pos rfl, hdrop]
        simp only [hasBadDelta]
        rw [hfirst, Bool.or_false]
        rfl
      · rw [if_neg h255]
        rw [ih (i+1) _ (by omega) rfl hfamn (hsn hs)]
        simp only [hasBadDelta]
        rw [hfirst, Bool.false_or]
        rfl

/-- C1 amended: a table with a single-step delta outside [-1, 3] makes
the compression loop break at that step (the loop is marked aborted and
stops encoding), but no error is raised: write_wave_table still issues
the MSLUTSTART writes before the loop and the MSLUTSEL writes after
it. -/
theorem c1_bad_delta_halts_encoding_without_error (table : List ℤ)
    (ht : table.length = 256) (hbad : hasBadDelta 0 table = true) :
    (write_wave_table table).aborted = true ∧
    ∃ mid, (write_wave_table table).writes =
      [("start_sin", 0), ("start_sin90", 248)] ++ mid ++
        selWrites (write_wave_table table).w (write_wave_table table).x := by
  refine ⟨?_, ⟨(compLoop table (List.range 256) initState).lutWrites, rfl⟩⟩
  show (compLoop table (List.range 256) initState).aborted = true
  rw [List.range_eq_range',
    compLoop_aborted table ht 256 0 initState (by omega) rfl
      (by simp [famOK, initState]) (by simp [initState])]
  simpa [initState] using hbad

theorem c1_bad_delta_witness :
    (write_wave_table ((20 : ℤ) :: List.replicate 255 20)).aborted = true :=
  (c1_bad_delta_halts_encoding_without_error ((20 : ℤ) :: List.replicate 255 20)
    (by simp) (by decide)).1

/-! ## C8: bit packing of the 32-bit accumulator into the mslut words -/

lemma getD_append_lt {α : Type} (l₁ l₂ : List α) (d : α) (j : ℕ)
    (h : j < l₁.length) : (l₁ ++ l₂).getD j d = l₁.getD j d := by
  simp [List.getD_eq_getElem?_getD, List.getElem?_append_left h]

lemma getD_concat_self {α : Type} (l : List α) (a d : α) :
    (l ++ [a]).getD l.length d = a := by
  simp [List.getD_eq_getElem?_getD, List.getElem?_concat_length]

lemma getD_drop_add {α : Type} (l : List α) (d : α) (m j : ℕ) :
    (l.drop m).getD j d = l.getD (m + j) d := by
  simp [List.getD_eq_getElem?_getD, List.getElem?_drop]

/-- Accumulator invariant inside a 32-index block: after the first r
bits of the block have been processed (and the accumulator shifted),
bit t of the block sits at position t + 31 - r, and all other bits are
clear. -/
def RegInv (r : ℕ) (blk : List Bool) (reg : ℕ) : Prop :=
  ∀ j : ℕ, reg.testBit j =
    (decide (31 - r ≤ j) && decide (j < 31) && blk.getD (j - (31 - r)) false)

lemma regInv_zero : RegInv 0 [] 0 := by
  intro j
  simp

lemma testBit_setTop (reg : ℕ) (b : Bool) (k : ℕ) :
    ((if b then reg ||| 0x80000000 else reg).testBit k) =
      (reg.testBit k || (b && decide (31 = k))) := by
  have h31 : (0x80000000 : ℕ) = 2 ^ 31 := by norm_num
  cases b
  · simp
  · rw [if_pos rfl, h31, Nat.testBit_or, Nat.testBit_two_pow]
    simp

lemma regInv_step (r : ℕ) (blk : List Bool) (reg : ℕ) (b : Bool)
    (hlen : blk.length = r) (hr : r < 31) (hinv : RegInv r blk reg) :
    RegInv (r+1) (blk ++ [b]) ((if b then reg ||| 0x80000000 else reg) >>> 1) := by
  intro j
  rw [Nat.testBit_shiftRight, testBit_setTop, hinv (1 + j)]
  by_cases h1 : 31 ≤ j
  · have e1 : decide (1 + j < 31) = false := decide_eq_false (by omega)
    have e2 : decide (31 = 1 + j) = false := decide_eq_false (by omega)
    have e3 : decide (j < 31) = false := decide_eq_false (by omega)
    rw [e1, e2, e3]
    simp
  · by_cases h2 : j = 30
    · subst h2
      have e1 : decide (1 + 30 < 31) = false := decide_eq_false (by omega)
      have e2 : decide (31 = 1 + 30) = true := decide_eq_true (by omega)
      have e3 : decide (31 - (r+1) ≤ 30) = true := decide_eq_true (by omega)
      have e4 : decide ((30:ℕ) < 31) = true := decide_eq_true (by omega)
      have e5 : (blk ++ [b]).getD (30 - (31 - (r+1))) false = b := by
        have h30 : 30 - (31 - (r+1)) = blk.length := by omega
        rw [h30, getD_concat_self]
      rw [e1, e2, e3, e4, e5]
      simp
    · have hj : j < 30 := by omega
      have e1 : decide (1 + j < 31) = true := decide_eq_true (by omega)
      have e2 : decide (31 = 1 + j) = false := decide_eq_false (by omega)
      have e4 : decide (j < 31) = true := decide_eq_true (by omega)
      rw [e1, e2, e4]
      simp only [Bool.and_true, Bool.true_and, Bool.and_false, Bool.or_false]
      by_cases h3 : 31 - (r+1) ≤ j
      · have e5 : decide (31 - r ≤ 1 + j) = true := decide_eq_true (by omega)
        have e6 : decide (31 - (r+1) ≤ j) = true := decide_eq_true (by omega)
        have heq : 1 + j - (31 - r) = j - (31 - (r+1)) := by omega
        have hidx : j - (31 - (r+1)) < blk.length := by omega
        rw [e5, e6, heq, getD_append_lt _ _ _ _ hidx]
      · have e5 : decide (31 - r ≤ 1 + j) = false := decide_eq_false (by omega)
        have e6 : decide (31 - (r+1) ≤ j) = false := decide_eq_false (by omega)
        rw [e5, e6]
        simp

lemma regInv_store (blk : List Bool) (reg : ℕ) (b : Bool)
    (hlen : blk.length = 31) (hinv : RegInv 31 blk reg) (j : ℕ) :
    ((if b then reg ||| 0x80000000 else reg).testBit j) =
      (decide (j < 32) && (blk ++ [b]).getD j false) := by
  rw [testBit_setTop, hinv j]
  by_cases h1 : j < 31
  · have e0 : decide (31 - 31 ≤ j) = true := decide_eq_true (by omega)
    have e1 : decide (j < 31) = true := decide_eq_true (by omega)
    have e2 : decide (31 = j) = false := decide_eq_false (by omega)
    have e3 : decide (j < 32) = true := decide_eq_true (by omega)
    have e4 : (blk ++ [b]).getD j false = blk.getD j false :=
      getD_append_lt _ _ _ _ (by omega)
    have e5 : j - (31 - 31) = j := by omega
    rw [e0, e1, e2, e3, e5, e4]
    simp
  · by_cases h2 : j = 31
    · subst h2
      have e1 : decide ((31:ℕ) < 31) = false := decide_eq_false (by omega)
      have e2 : decide (31 = 31) = true := decide_eq_true rfl
      have e3 : decide ((31:ℕ) < 32) = true := decide_eq_true (by omega)
      have e4 : (blk ++ [b]).getD 31 false = b := by
        have h31 : (31:ℕ) = blk.length := by omega
        rw [h31, getD_concat_self]
      rw [e1, e2, e3, e4]
      simp
    · have e1 : decide (j < 31) = false := decide_eq_false (by omega)
      have e2 : decide (31 = j) = false := decide_eq_false (by omega)
      have e3 : decide (j < 32) = false := decide_eq_false (by omega)
      rw [e1, e2, e3]
      simp

/-- Invariant carried through the compression loop: after i indices the
bits list has length i, one word has been stored per completed 32-index
block, bit (t mod 32) of words[t div 32] is the bit emitted at index t
for every completed block, and the accumulator satisfies RegInv for the
current partial block. -/
def PackInv (i : ℕ) (st : CompState) : Prop :=
  st.bits.length = i ∧
  st.words.length = i / 32 ∧
  (∀ k j, k < i / 32 → ((st.words.getD k 0).testBit j) =
    (decide (j < 32) && st.bits.getD (32*k + j) false)) ∧
  (i % 32 ≠ 0 → RegInv (i % 32) (st.bits.drop (32*(i/32))) st.reg)

lemma packInv_step (st : CompState) (vA : ℤ) (b : Bool) (d0n d1n : ℤ) (sn : ℕ)
    (wn xn : List ℤ) (i : ℕ) (hi : i < 256) (hP : PackInv i st) :
    PackInv (i+1) (compStepGood st vA b d0n d1n sn wn xn i) := by
  obtain ⟨hbits, hwords, hword, hreg⟩ := hP
  simp only [compStepGood]
  by_cases hr31 : i % 32 = 31
  · rw [if_pos hr31, if_pos hr31]
    have hq : (i+1) / 32 = i / 32 + 1 := by omega
    have hm : (i+1) % 32 = 0 := by omega
    have hblk : (st.bits.drop (32*(i/32))).length = 31 := by
      rw [List.length_drop, hbits]; omega
    have hRI : RegInv 31 (st.bits.drop (32*(i/32))) st.reg := by
      have h := hreg (by omega)
      rwa [hr31] at h
    refine ⟨by simp [hbits], ?_, ?_, ?_⟩
    · simp only [List.length_append, List.length_cons, List.length_nil, hwords]
      omega
    · intro k j hk
      rw [hq] at hk
      by_cases hkq : k < i / 32
      · rw [getD_append_lt _ _ _ _ (by rw [hwords]; exact hkq), hword k j hkq]
        by_cases hj : j < 32
        · have hlt : 32*k + j < st.bits.length := by rw [hbits]; omega
          rw [getD_append_lt _ _ _ _ hlt]
        · have ej : decide (j < 32) = false := decide_eq_false hj
          rw [ej]
          simp
      · have hkq2 : k = i / 32 := by omega
        subst hkq2
        have hw0 : (st.words ++ [if b then (if i % 32 = 0 then 0 else st.reg) |||
            0x80000000 else (if i % 32 = 0 then 0 else st.reg)]).getD (i/32) 0 =
            (if b then (if i % 32 = 0 then 0 else st.reg) ||| 0x80000000
              else (if i % 32 = 0 then 0 else st.reg)) := by
          rw [← hwords, getD_concat_self]
        rw [hw0]
        have hr0 : ¬ i % 32 = 0 := by omega
        rw [if_neg hr0]
        rw [regInv_store _ _ b hblk hRI j]
        have hdw : (st.bits ++ [b]).drop (32*(i/32)) =
            st.bits.drop (32*(i/32)) ++ [b] :=
          List.drop_append_of_le_length (by rw [hbits]; omega)
        have hgd : (st.bits.drop (32*(i/32)) ++ [b]).getD j false =
            (st.bits ++ [b]).getD (32*(i/32) + j) false := by
          rw [← hdw, getD_drop_add]
        rw [hgd]
    · intro hcon
      rw [hm] at hcon
      exact absurd rfl hcon
  · rw [if_neg hr31, if_neg hr31]
    have hq : (i+1) / 32 = i / 32 := by omega
    have hm : (i+1) % 32 = i % 32 + 1 := by omega
    refine ⟨by simp [hbits], by rw [hq]; exact hwords, ?_, ?_⟩
    · intro k j hk
      rw [hq] at hk
      rw [hword k j hk]
      by_cases hj : j < 32
      · have hlt : 32*k + j < st.bits.length := by rw [hbits]; omega
        rw [getD_append_lt _ _ _ _ hlt]
      · have ej : decide (j < 32) = false := decide_eq_false hj
        rw [ej]
        simp
    · intro _
      rw [hm, hq]
      have hblklen : (st.bits.drop (32*(i/32))).length = i % 32 := by
        rw [List.length_drop, hbits]; omega
      have hbase : RegInv (i % 32) (st.bits.drop (32*(i/32)))
          (if i % 32 = 0 then 0 else st.reg) := by
        by_cases hr0 : i % 32 = 0
        · rw [if_pos hr0, hr0]
          have hnil : st.bits.drop (32*(i/32)) = [] := by
            rw [List.drop_eq_nil_iff, hbits]; omega
          rw [hnil]
          exact regInv_zero
        · rw [if_neg hr0]
          exact hreg hr0
      have hstep := regInv_step (i % 32) (st.bits.drop (32*(i/32)))
        (if i % 32 = 0 then 0 else st.reg) b hblklen (by omega) hbase
      have hdw : (st.bits ++ [b]).drop (32*(i/32)) =
          st.bits.drop (32*(i/32)) ++ [b] :=
        List.drop_append_of_le_length (by rw [hbits]; omega)
      rw [hdw]
      exact hstep

lemma compLoop_pack (table : List ℤ) :
    ∀ (n i : ℕ) (st : CompState), i + n = 256 → PackInv i st →
      (compLoop table (List.range' i n) st).aborted = false →
      PackInv 256 (compLoop table (List.range' i n) st) := by
  intro n
  induction n with
  | zero =>
    intro i st hin hP _
    rw [List.range'_zero]
    have hi : i = 256 := by omega
    subst hi
    exact hP
  | succ n ih =>
    intro i st hin hP
    rw [List.range'_succ]
    cases hE : encodeDelta (table.getD i 0 - st.va) st.d0 st.d1 st.s st.w st.x i with
    | none =>
      simp only [compLoop, hE]
      intro hcon
      simp at hcon
    | some out =>
      obtain ⟨b, d0n, d1n, sn, wn, xn⟩ := out
      simp only [compLoop, hE]
      by_cases hsn : sn > 3
      · rw [if_pos hsn]
        intro hcon
        simp at hcon
      · rw [if_neg hsn]
        by_cases h255 : i = 255
        · subst h255
          rw [if_pos rfl]
          intro _
          exact packInv_step st _ b d0n d1n sn wn xn 255 (by omega) hP
        · rw [if_neg h255]
          exact ih (i+1) _ (by omega)
            (packInv_step st _ b d0n d1n sn wn xn i (by omega) hP)

/-- C8: whenever the compressor fully encodes a table (the loop is not
aborted), 256 delta-class bits are emitted, 8 words are stored, and bit
(i mod 32) of words[i div 32] equals the delta-class bit emitted at
index i, for every i in 0..255. -/
theorem c8_words_encode_emitted_bits (table : List ℤ)
    (ht : table.length = 256)
    (hok : (write_wave_table table).aborted = false) :
    (write_wave_table table).bits.length = 256 ∧
    (write_wave_table table).words.length = 8 ∧
    ∀ i, i < 256 →
      (((write_wave_table table).words.getD (i / 32) 0).testBit (i % 32)) =
        (write_wave_table table).bits.getD i false := by
  have hrange : List.range 256 = List.range' 0 256 := List.range_eq_range' 256
  have hInit : PackInv 0 initState := by
    refine ⟨rfl, rfl, ?_, ?_⟩
    · intro k j hk
      exact absurd hk (by omega)
    · intro hcon
      exact absurd rfl hcon
  have hok2 : (compLoop table (List.range' 0 256) initState).aborted = false := by
    rw [← hrange]
    exact hok
  have h := compLoop_pack table 256 0 initState (by omega) hInit hok2
  obtain ⟨h1, h2, h3, _⟩ := h
  rw [← hrange] at h1 h2 h3
  refine ⟨h1, ?_, ?_⟩
  · show (compLoop table (List.range 256) initState).words.length = 8
    rw [h2]
  intro i hi
  have hk : i / 32 < 256 / 32 := by omega
  have h4 := h3 (i / 32) (i % 32) (by omega)
  have e1 : decide (i % 32 < 32) = true := decide_eq_true (by omega)
  have e2 : 32 * (i / 32) + i % 32 = i := Nat.div_add_mod i 32
  rw [e1, Bool.true_and, e2] at h4
  exact h4

theorem c8_words_encode_emitted_bits_witness :
    (((write_wave_table (List.replicate 256 0)).words.getD (5 / 32) 0).testBit
        (5 % 32)) =
      (write_wave_table (List.replicate 256 0)).bits.getD 5 false :=
  (c8_words_encode_emitted_bits (List.replicate 256 0) (by simp)
    (by decide)).2.2 5 (by omega)

end TMCLin
